import Mathlib

/-!
Shallow embedding of the `minimaizer` repository (source files `complex.py`
and `polynomial.py`) over exact arithmetic: Python floats become `ℚ`, the
custom `Complex` class becomes a pair of rationals, and the external root
solver (`np.roots`) is modelled by an explicit root-list argument
constrained by the predicate `ExactSolver` (the solver treated as exact;
`np.roots` interprets the coefficient list it receives in descending-degree
order, trimming leading zeros).

Python `dict`/`set` values built from root lists are modelled as
association lists; `set(...)` iteration order is unspecified in Python, so
we fix one concrete order (`pyUnique`, which keeps the last occurrence of
each element).  Nonterminating runs of the synthetic-division loop are
modelled with a fuel parameter (`divLoop` returns `none` when fuel runs
out); raised exceptions become `Except.error`.
-/

namespace Minimaizer

/-- The `Complex` class of `complex.py`: Cartesian components `re`, `im`
(Python floats, embedded as exact rationals).  The derived polar fields
`r` and `phase` are not needed by any claim; where the code squares
`abs()` we use the exact value `re^2 + im^2` (`absSq`). -/
structure Complex where
  re : ℚ
  im : ℚ
deriving DecidableEq

namespace Complex

instance : Zero Complex := ⟨⟨0, 0⟩⟩

instance : One Complex := ⟨⟨1, 0⟩⟩

/-- Model of `Complex.__add__` with a `Complex` operand (componentwise sums). -/
instance : Add Complex := ⟨fun a b => ⟨a.re + b.re, a.im + b.im⟩⟩

/-- Model of `Complex.__neg__`. -/
instance : Neg Complex := ⟨fun a => ⟨-a.re, -a.im⟩⟩

/-- Model of `Complex.__mul__` with a `Complex` operand (Cartesian product formula
from the code). -/
instance : Mul Complex := ⟨fun a b => ⟨a.re * b.re - a.im * b.im, a.re * b.im + a.im * b.re⟩⟩

theorem zero_def : (0 : Complex) = ⟨0, 0⟩ := rfl

theorem one_def : (1 : Complex) = ⟨1, 0⟩ := rfl

theorem add_def (a b : Complex) : a + b = ⟨a.re + b.re, a.im + b.im⟩ := rfl

theorem neg_def (a : Complex) : -a = ⟨-a.re, -a.im⟩ := rfl

theorem mul_def (a b : Complex) :
    a * b = ⟨a.re * b.re - a.im * b.im, a.re * b.im + a.im * b.re⟩ := rfl

theorem ext_iff {a b : Complex} : a = b ↔ a.re = b.re ∧ a.im = b.im := by
  constructor
  · intro h; exact ⟨congrArg re h, congrArg im h⟩
  · rintro ⟨h1, h2⟩; cases a; cases b; simp_all

instance : CommRing Complex where
  add_assoc a b c := by simp [add_def, ext_iff]; constructor <;> ring
  zero_add a := by simp [add_def, zero_def, ext_iff]
  add_zero a := by simp [add_def, zero_def, ext_iff]
  add_comm a b := by simp [add_def, ext_iff]; constructor <;> ring
  mul_assoc a b c := by simp [mul_def, ext_iff]; constructor <;> ring
  one_mul a := by simp [mul_def, one_def, ext_iff]
  mul_one a := by simp [mul_def, one_def, ext_iff]
  left_distrib a b c := by simp [mul_def, add_def, ext_iff]; constructor <;> ring
  right_distrib a b c := by simp [mul_def, add_def, ext_iff]; constructor <;> ring
  mul_comm a b := by simp [mul_def, ext_iff]; constructor <;> ring
  zero_mul a := by simp [mul_def, zero_def, ext_iff]
  mul_zero a := by simp [mul_def, zero_def, ext_iff]
  neg_add_cancel a := by simp [add_def, neg_def, zero_def, ext_iff]
  nsmul := nsmulRec
  zsmul := zsmulRec

theorem zero_mk : (0 : Complex) = ⟨0, 0⟩ := rfl

theorem one_mk : (1 : Complex) = ⟨1, 0⟩ := rfl

@[simp] theorem zero_re : (0 : Complex).re = 0 := rfl

@[simp] theorem zero_im : (0 : Complex).im = 0 := rfl

@[simp] theorem one_re : (1 : Complex).re = 1 := rfl

@[simp] theorem one_im : (1 : Complex).im = 0 := rfl

/-- Squared magnitude `re^2 + im^2`: the exact value of `self.__abs__() ** 2`
(the code computes `sqrt(re^2 + im^2) ** 2`, which is this in exact real
arithmetic). -/
def absSq (z : Complex) : ℚ := z.re ^ 2 + z.im ^ 2

/-- Model of `Complex.conjugate`. -/
def conjugate (z : Complex) : Complex := ⟨z.re, -z.im⟩

/-- The scalar branch of `Complex.__truediv__`: raises `ZeroDivisionError`
on a zero scalar, otherwise divides both components. -/
def truedivScalar (z : Complex) (s : ℚ) : Except Unit Complex :=
  if s = 0 then .error () else .ok ⟨z.re / s, z.im / s⟩

/-- Model of `Complex.__rtruediv__` (`scalar / complex`): the code computes
`self.conjugate().__truediv__(self.__abs__() ** 2)`, never using the scalar
operand `other`. -/
def rtruediv (z : Complex) (_other : ℚ) : Except Unit Complex :=
  truedivScalar (conjugate z) (absSq z)

/-- Division of one `Complex` value by another, the formula of the
`Complex` branch of `__truediv__`.  Inside `Polynomial.div` this is only
ever applied with divisor `1` (the leading coefficient of a monic
reconstruction), so the `ZeroDivisionError` branch of `__truediv__` can
never fire there and is elided. -/
def divC (z w : Complex) : Complex :=
  ⟨(z.re * w.re + z.im * w.im) / absSq w, (z.im * w.re - z.re * w.im) / absSq w⟩

/-- Operands Python can hand to `Complex.__eq__`/`__ne__`: a real scalar
(`int` and `float` collapse to an exact rational), another `Complex`, or a
value of any other type. -/
inductive PyVal where
  | scalar (q : ℚ)
  | cplx (w : Complex)
  | other

/-- Model of `Complex.__eq__`: scalar comparison iff `im == 0` and `re` equals the
scalar; componentwise comparison against a `Complex`; `NotImplementedError`
(modelled as `Except.error`) for any other operand type. -/
def eqOp (z : Complex) (v : PyVal) : Except Unit Bool :=
  match v with
  | .scalar q => .ok (decide (z.re = q ∧ z.im = 0))
  | .cplx w => .ok (decide (z.re = w.re ∧ z.im = w.im))
  | .other => .error ()

/-- Model of `Complex.__ne__`: `not self.__eq__(other)`, so an error raised by
`__eq__` propagates. -/
def neOp (z : Complex) (v : PyVal) : Except Unit Bool :=
  match eqOp z v with
  | .ok b => .ok (!b)
  | .error e => .error e

end Complex

/-! ### Float representation details for `__hash__`/`__repr__` (C9)

Exact rationals erase the IEEE-754 distinction between `0.0` and `-0.0`,
which is exactly what `__hash__` (a hash of the `repr` string) is sensitive
to.  For the hashing claim we therefore refine the float model to a
rational value plus a negative-zero marker. -/

/-- A Python float for the repr/hash model: its exact value plus a marker
that is `true` exactly when the float is IEEE `-0.0` (so `negZero = true`
implies `val = 0`). -/
structure PyFloat where
  val : ℚ
  negZero : Bool

/-- Python `repr` of a float, modelled as a leading `-` sign (present for
negative values and for `-0.0`) followed by an injective rendering of the
magnitude.  The decimal digit expansion of CPython is abbreviated to
`num/den`; all that matters is that the rendering is an injective function
of the float datum, as CPython's shortest-round-trip repr is. -/
def reprFloat (x : PyFloat) : String :=
  (if x.negZero = true ∨ x.val < 0 then "-" else "") ++
    (toString x.val.num.natAbs ++ "/" ++ toString x.val.den)

/-- The `Complex` class carrying full float data, for the repr/hash model. -/
structure ComplexF where
  re : PyFloat
  im : PyFloat

namespace ComplexF

/-- Model of `Complex.__eq__` between two `Complex` values: `self.re == other.re and
self.im == other.im`, Python float equality (which ignores the sign of
zero, `0.0 == -0.0`). -/
def eq (a b : ComplexF) : Bool :=
  decide (a.re.val = b.re.val) && decide (a.im.val = b.im.val)

/-- Model of `Complex.__repr__`: `f'{re}'` when `im == 0`, otherwise
`f'{re}{sign}{im}i'` with `sign = '' if im < 0 else '+'`.  Note `im == 0`
and `im < 0` are float comparisons on the value, ignoring the zero sign. -/
def pyRepr (z : ComplexF) : String :=
  if z.im.val = 0 then reprFloat z.re
  else reprFloat z.re ++ (if z.im.val < 0 then "" else "+") ++ reprFloat z.im ++ "i"

/-- Model of `Complex.__hash__` is `self.__repr__().__hash__()`.  Python's string
hash is a fixed deterministic function of the string (for any hash seed),
injective on the short distinct strings arising here, so we take the repr
string itself as the hash value. -/
def pyHash (z : ComplexF) : String := z.pyRepr

end ComplexF

/-! ### Polynomials (`polynomial.py`) -/

/-- Pointwise sum of two lists aligned at the head, keeping the tail of the
longer one (helper for `convolve`). -/
def addPad {α : Type} [Add α] : List α → List α → List α
  | [], ys => ys
  | xs, [] => xs
  | x :: xs, y :: ys => (x + y) :: addPad xs ys

/-- Discrete convolution of coefficient sequences,
`(convolve a b)[k] = ∑_{i+j=k} a[i]*b[j]`: the exact mathematical contract
of the convolution collaborators (`scipy.signal.fftconvolve` in `__mul__`,
`np.convolve` in `polynomial_from_roots`), phrased recursively:
`(a₀ :: as) ⊛ b = a₀·b  padded-plus  (0 :: (as ⊛ b))`.  Both collaborators
are only applied to non-empty inputs in the claims. -/
def convolve {α : Type} [Add α] [Mul α] [Zero α] : List α → List α → List α
  | [], _ => []
  | x :: xs, b => addPad (b.map (fun c => x * c)) (0 :: convolve xs b)

/-- A Python `set(l)` as a list: one copy of each distinct element.  Python
set iteration order is unspecified; this model keeps the last occurrence. -/
def pyUnique {α : Type} [DecidableEq α] : List α → List α
  | [] => []
  | x :: xs => if x ∈ xs then pyUnique xs else x :: pyUnique xs

/-- Model of `l.count x` (number of occurrences), structurally. -/
def countOcc {α : Type} [DecidableEq α] (x : α) : List α → ℕ
  | [] => 0
  | y :: ys => (if y = x then 1 else 0) + countOcc x ys

/-- Model of `{r: roots.count(r) for r in set(roots)}` from the constructor. -/
def groupCount (l : List Complex) : List (Complex × ℕ) :=
  (pyUnique l).map (fun r => (r, countOcc r l))

/-- The `Polynomial` class: coefficient list (`self.coef`, Python floats)
and the cached root-multiplicity dict (`self.roots`) built at construction.
`self.degree` is derived (`len - 1`, or `-inf` on the empty list) and
modelled by `degreeZ?`. -/
structure Polynomial where
  coef : List ℚ
  roots : List (Complex × ℕ)

/-- Model of `Polynomial.__init__`: stores the coefficients and groups the root list
returned by the external solver (`np.roots(self.coef)`) into the
multiplicity dict.  The solver's output is passed explicitly; theorems
constrain it by `ExactSolver`. -/
def mkPolynomial (coefficients : List ℚ) (rootList : List Complex) : Polynomial :=
  ⟨coefficients, groupCount rootList⟩

/-- Model of `Polynomial.coefficients()` (returns `self.coef.tolist()`, a plain
Python list). -/
def Polynomial.coefficients (p : Polynomial) : List ℚ := p.coef

/-- Real scalar viewed as a `Complex` value. -/
def ofQ (q : ℚ) : Complex := ⟨q, 0⟩

/-- The convolution loop of `polynomial_from_roots`: starting from `[1]`,
convolve with `[1, -root]` for each root in order.  The output is monic,
in descending-degree order. -/
def monicFromRoots (roots : List Complex) : List Complex :=
  roots.foldl (fun coeffs root => convolve coeffs [1, -root]) [1]

/-- Exceptions raised inside `Polynomial.div`: the explicit
`ZeroDivisionError` of the degenerate-zero check, and the `AttributeError`
that `polynomial_from_roots` raises on an empty root sequence. -/
inductive PyErr where
  | zeroDivision
  | attrErr
deriving DecidableEq

/-- Model of `Polynomial.polynomial_from_roots`: `coeffs` starts as the
PLAIN Python list `[1]`; each pass of the loop replaces it by a numpy
array (`np.convolve`).  On an empty root sequence the loop never runs, so
the final `coeffs.tolist()` is called on a plain list and raises
`AttributeError`; otherwise the result is the monic expansion of the
roots. -/
def polynomial_from_roots (roots : List Complex) : Except PyErr (List Complex) :=
  if roots = [] then .error .attrErr else .ok (monicFromRoots roots)

/-- Leading zeros stripped from a coefficient list, as `np.roots` does
before solving. -/
def trimLead (l : List ℚ) : List ℚ := l.dropWhile (fun c => c = 0)

/-- The external root solver treated as exact.  `np.roots` reads the
coefficient list it is handed in descending-degree order, trims leading
zeros and returns the full root multiset of that polynomial: so the list
`rootList` is exact for `coeffs` iff the trimmed sequence equals its own
leading coefficient times the monic expansion of `rootList`.  (An empty or
all-zero sequence trims to nothing and yields no roots.) -/
def ExactSolver (coeffs : List ℚ) (rootList : List Complex) : Prop :=
  (trimLead coeffs = [] → rootList = []) ∧
  (trimLead coeffs ≠ [] → (trimLead coeffs).map ofQ =
    (monicFromRoots rootList).map (fun z => ofQ ((trimLead coeffs).headD 0) * z))

instance (coeffs : List ℚ) (rootList : List Complex) :
    Decidable (ExactSolver coeffs rootList) := by
  unfold ExactSolver; infer_instance

/-- Lines 79–80 of `polynomial.py`:
`len(set(other.coefficients())) == 1 and 0 in other.coefficients()`. -/
def zeroDivisorCheck (l : List ℚ) : Bool :=
  decide ((pyUnique l).length = 1) && decide ((0 : ℚ) ∈ l)

/-- Line 85: `len(set(self.coefficients()) - set(other.coefficients())) != 0`. -/
def cancelGuard (self other : Polynomial) : Bool :=
  decide (((pyUnique self.coef).filter (fun c => c ∉ other.coef)).length ≠ 0)

/-- Dict lookup `p2[k]` / membership `k in p2.keys()`. -/
def lookupRoot (k : Complex) : List (Complex × ℕ) → Option ℕ
  | [] => none
  | (r, m) :: rest => if r = k then some m else lookupRoot k rest

/-- Lines 86–89: for every key `k` of `p1` also present in `p2`,
`p1[k] -= min(p2[k], p1[k])` (the subtraction cannot go below zero). -/
def cancel (p1 p2 : List (Complex × ℕ)) : List (Complex × ℕ) :=
  p1.map (fun kv =>
    match lookupRoot kv.1 p2 with
    | none => kv
    | some w => (kv.1, kv.2 - min w kv.2))

/-- Lines 84–89 as one step: the state of `p1` (which *aliases*
`self.roots`, line 81 — no copy is taken) after the root-cancellation
block. -/
def cancelStep (self other : Polynomial) : List (Complex × ℕ) :=
  if cancelGuard self other then cancel self.roots other.roots else self.roots

/-- Lines 92–93: each root repeated per its multiplicity
(`[[r] * t for r, t in p.items()]`, flattened).  The numpy flattening is
only well defined when the comprehension is not ragged; the claims are
settled on inputs where it is not. -/
def expandRoots (m : List (Complex × ℕ)) : List Complex :=
  (m.map (fun kv => List.replicate kv.2 kv.1)).flatten

/-- Lines 109–110: `while len(remainder) > 1 and remainder[0] == 0:
remainder = remainder[1:]`. -/
def stripZeros : List Complex → List Complex
  | [] => []
  | x :: rest => if rest ≠ [] ∧ x = 0 then stripZeros rest else x :: rest

/-- Lines 104–111, the synthetic-division loop, with fuel (`none` models a
run that never exits the loop: the code contains no bound, and e.g. a
constant reconstructed divisor `[1]` loops forever once the remainder
reaches `[0]`). -/
def divLoop (divisor : List Complex) : ℕ → List Complex → List Complex →
    Option (List Complex × List Complex)
  | 0, _, _ => none
  | fuel + 1, quotient, remainder =>
    if (remainder.length : ℤ) - 1 < (divisor.length : ℤ) - 1 then some (quotient, remainder)
    else
      let l := Complex.divC (remainder.headD 0) (divisor.headD 0)
      let remainder' := stripZeros
        ((List.range divisor.length).map
            (fun i => remainder.getD i 0 - l * divisor.getD i 0) ++
          remainder.drop divisor.length)
      divLoop divisor fuel (quotient ++ [l]) remainder'

/-- Everything a completed run of `Polynomial.div` leaves behind: the
returned pair (or `none` for a run that never exits the loop), and the
final states of the two roots dicts (`p1` aliases `self.roots` and is
decremented in place; `p2` aliases `other.roots` and is only read).  On a
raised exception the result carries only the error; no claim needs the
dict states of an aborted call. -/
structure DivResult where
  out : Option (List Complex × List Complex)
  p1 : List (Complex × ℕ)
  p2 : List (Complex × ℕ)
deriving DecidableEq

instance {ε α : Type} [DecidableEq ε] [DecidableEq α] : DecidableEq (Except ε α) :=
  fun a b =>
    match a, b with
    | .error x, .error y =>
      match decEq x y with
      | isTrue h => isTrue (by rw [h])
      | isFalse h => isFalse (fun hc => h (by cases hc; rfl))
    | .ok x, .ok y =>
      match decEq x y with
      | isTrue h => isTrue (by rw [h])
      | isFalse h => isFalse (fun hc => h (by cases hc; rfl))
    | .error _, .ok _ => isFalse (fun hc => by cases hc)
    | .ok _, .error _ => isFalse (fun hc => by cases hc)

/-- Model of `Polynomial.div` (lines 78–112).  Two exceptions are modelled:
the `ZeroDivisionError` of the degenerate-zero check (lines 79–80), and the
`AttributeError` that `polynomial_from_roots` raises at line 92/93 whenever
the dividend's surviving root multiset or the divisor's root multiset is
empty (any constant operand).  The crashes numpy produces on RAGGED
multiplicity lists at lines 92–93 (multiplicities differing across roots)
are a separate failure of the array collaborator and are not modelled; the
claims are settled on inputs with homogeneous multiplicities. -/
def Polynomial.div (self other : Polynomial) (fuel : ℕ) : Except PyErr DivResult :=
  if zeroDivisorCheck other.coefficients then .error .zeroDivision
  else
    let p1 := cancelStep self other
    let p2 := other.roots
    match polynomial_from_roots (expandRoots p1) with
    | .error e => .error e
    | .ok dividend =>
      match polynomial_from_roots (expandRoots p2) with
      | .error e => .error e
      | .ok divisor =>
        if (dividend.length : ℤ) - 1 < (divisor.length : ℤ) - 1 then
          .ok ⟨some ([0], dividend), p1, p2⟩
        else
          .ok ⟨divLoop divisor fuel [] dividend, p1, p2⟩

/-- Model of `Polynomial.__mul__`: the new coefficient sequence is the convolution
of the operands' coefficient sequences (the constructor then recomputes
the roots of the product from the solver). -/
def Polynomial.mulCoef (self other : Polynomial) : List ℚ :=
  convolve self.coefficients other.coefficients

/-- numpy elementwise arithmetic on two 1-d arrays: equal lengths combine
pointwise, a length-1 operand broadcasts to the other's length, and any
other shape mismatch raises `ValueError`. -/
def npBroadcast (f : ℚ → ℚ → ℚ) (a b : List ℚ) : Except Unit (List ℚ) :=
  if a.length = b.length then .ok (List.zipWith f a b)
  else if a.length = 1 then .ok (b.map (fun y => f (a.headD 0) y))
  else if b.length = 1 then .ok (a.map (fun x => f x (b.headD 0)))
  else .error ()

/-- Model of `Polynomial.__add__` with a `Polynomial` operand:
`(self.coef + other.coef).tolist()` (numpy array addition). -/
def Polynomial.addCoef (self other : Polynomial) : Except Unit (List ℚ) :=
  npBroadcast (· + ·) self.coef other.coef

/-- Model of `Polynomial.__sub__` with a `Polynomial` operand:
`(self.coef - other.coef).tolist()` (numpy array subtraction). -/
def Polynomial.subCoef (self other : Polynomial) : Except Unit (List ℚ) :=
  npBroadcast (· - ·) self.coef other.coef

/-- CPython semantics of the expression `-l` for a plain `list` `l`: the
`list` type defines no unary minus, so a `TypeError` is raised whatever
the list holds. -/
def pyListNeg (_l : List ℚ) : Except Unit (List ℚ) := .error ()

/-- Model of `Polynomial.__neg__`: `Polynomial(-self.coefficients())`.
`coefficients()` returns `self.coef.tolist()`, a plain Python list, so the
unary minus is applied to a `list`, not to the numpy array. -/
def Polynomial.negCoef (p : Polynomial) : Except Unit (List ℚ) :=
  pyListNeg p.coefficients

/-- Horner evaluation of a descending-degree coefficient sequence. -/
def evalDesc (l : List Complex) (z : Complex) : Complex :=
  l.foldl (fun acc c => acc * z + c) 0

/-- Evaluation of a coefficient sequence read in ascending-degree order
(`c[0] + c[1]*x + ...`), the reading the specification assigns to
`Polynomial` coefficient lists. -/
def evalAsc (l : List ℚ) (z : Complex) : Complex :=
  evalDesc (l.reverse.map ofQ) z

/-! ### Algebraic facts about the embedded `Complex` field -/

theorem Complex.absSq_mul (a b : Complex) :
    Complex.absSq (a * b) = Complex.absSq a * Complex.absSq b := by
  simp [Complex.absSq, Complex.mul_def]; ring

theorem Complex.absSq_eq_zero {a : Complex} : Complex.absSq a = 0 ↔ a = 0 := by
  constructor
  · intro h
    rw [Complex.absSq] at h
    have hre : a.re = 0 := by nlinarith [sq_nonneg a.re, sq_nonneg a.im]
    have him : a.im = 0 := by nlinarith [sq_nonneg a.re, sq_nonneg a.im]
    exact Complex.ext_iff.mpr ⟨hre, him⟩
  · rintro rfl
    show (0 : ℚ) ^ 2 + (0 : ℚ) ^ 2 = 0
    norm_num

instance : Nontrivial Complex :=
  ⟨0, 1, fun h => zero_ne_one (α := ℚ) (congrArg Complex.re h)⟩

instance : NoZeroDivisors Complex where
  eq_zero_or_eq_zero_of_mul_eq_zero {a b} h := by
    have h2 : Complex.absSq a * Complex.absSq b = 0 := by
      rw [← Complex.absSq_mul, h]; simp [Complex.absSq]
    rcases mul_eq_zero.mp h2 with h3 | h3
    · exact Or.inl (Complex.absSq_eq_zero.mp h3)
    · exact Or.inr (Complex.absSq_eq_zero.mp h3)

theorem ofQ_eq_zero {q : ℚ} : ofQ q = 0 ↔ q = 0 := by
  simp [ofQ, Complex.ext_iff]

/-! ### Evaluation lemmas for descending coefficient lists -/

theorem evalDesc_nil (z : Complex) : evalDesc [] z = 0 := rfl

theorem evalDesc_foldl (l : List Complex) (a z : Complex) :
    l.foldl (fun acc c => acc * z + c) a = a * z ^ l.length + evalDesc l z := by
  induction l generalizing a with
  | nil => simp [evalDesc]
  | cons c l ih =>
    simp only [List.foldl_cons, evalDesc, List.length_cons]
    rw [ih (a * z + c), ih (0 * z + c)]
    ring

theorem evalDesc_cons (c : Complex) (l : List Complex) (z : Complex) :
    evalDesc (c :: l) z = c * z ^ l.length + evalDesc l z := by
  show (c :: l).foldl (fun acc c => acc * z + c) 0 = _
  rw [List.foldl_cons, evalDesc_foldl]
  ring

theorem addPad_length {α : Type} [Add α] (xs ys : List α) :
    (addPad xs ys).length = max xs.length ys.length := by
  induction xs generalizing ys with
  | nil => simp [addPad]
  | cons x xs ih =>
    cases ys with
    | nil => simp [addPad]
    | cons y ys => simp [addPad, ih]; omega

theorem evalDesc_addPad (xs ys : List Complex) (h : xs.length ≤ ys.length) (z : Complex) :
    evalDesc (addPad xs ys) z =
      evalDesc xs z * z ^ (ys.length - xs.length) + evalDesc ys z := by
  induction xs generalizing ys with
  | nil => simp [addPad, evalDesc_nil]
  | cons x xs ih =>
    cases ys with
    | nil => simp at h
    | cons y ys =>
      simp only [List.length_cons] at h ⊢
      have h' : xs.length ≤ ys.length := by omega
      show evalDesc ((x + y) :: addPad xs ys) z = _
      rw [evalDesc_cons, evalDesc_cons, evalDesc_cons, ih ys h', addPad_length]
      have hm : max xs.length ys.length = ys.length := by omega
      rw [hm]
      have hs : (ys.length + 1 - (xs.length + 1)) = ys.length - xs.length := by omega
      rw [hs]
      have hz : z ^ ys.length = z ^ xs.length * z ^ (ys.length - xs.length) := by
        rw [← pow_add]; congr 1; omega
      rw [hz]
      ring

theorem convolve_linear_length (cs : List Complex) (u v : Complex) (h : cs ≠ []) :
    (convolve cs [u, v]).length = cs.length + 1 := by
  induction cs with
  | nil => simp at h
  | cons c cs ih =>
    show (addPad ([u, v].map (fun w => c * w)) (0 :: convolve cs [u, v])).length = _
    rw [addPad_length]
    cases cs with
    | nil => simp [convolve]
    | cons d ds =>
      have hd := ih (by simp)
      simp only [List.length_map, List.length_cons, List.length_nil, hd]
      omega

theorem evalDesc_convolve_linear (cs : List Complex) (r z : Complex) :
    evalDesc (convolve cs [1, -r]) z = evalDesc cs z * (z - r) := by
  induction cs with
  | nil => simp [convolve, evalDesc_nil]
  | cons c cs ih =>
    show evalDesc (addPad ([1, -r].map (fun w => c * w)) (0 :: convolve cs [1, -r])) z = _
    cases cs with
    | nil =>
      show evalDesc (addPad [c * 1, c * -r] [0]) z = _
      show evalDesc ((c * 1 + 0) :: addPad [c * -r] []) z = _
      show evalDesc [c * 1 + 0, c * -r] z = _
      rw [evalDesc_cons, evalDesc_cons, evalDesc_cons]
      simp [evalDesc_nil]; ring
    | cons d ds =>
      have hlen : (convolve (d :: ds) [1, -r]).length = ds.length + 2 :=
        convolve_linear_length (d :: ds) 1 (-r) (by simp)
      have hpad : ([1, -r].map (fun w => c * w)).length ≤ (0 :: convolve (d :: ds) [1, -r]).length := by
        simp [hlen]
      rw [evalDesc_addPad _ _ hpad z]
      rw [evalDesc_cons (0 : Complex) (convolve (d :: ds) [1, -r]) z, ih]
      rw [evalDesc_cons c (d :: ds) z]
      simp only [List.map_cons, List.map_nil]
      rw [evalDesc_cons (c * 1), evalDesc_cons (c * -r), evalDesc_nil]
      simp only [List.length_cons, List.length_nil, List.length_map, hlen]
      have hs : ds.length + 2 + 1 - 2 = ds.length + 1 := by omega
      rw [hs]
      simp only [pow_zero, pow_one, pow_succ]
      ring

theorem evalDesc_fromRoots_aux (rs : List Complex) (cs : List Complex) (z : Complex) :
    evalDesc (rs.foldl (fun coeffs root => convolve coeffs [1, -root]) cs) z =
      evalDesc cs z * (rs.map (fun r => z - r)).prod := by
  induction rs generalizing cs with
  | nil => simp
  | cons r rs ih =>
    simp only [List.foldl_cons, List.map_cons, List.prod_cons]
    rw [ih, evalDesc_convolve_linear]
    ring

theorem evalDesc_fromRoots (rs : List Complex) (z : Complex) :
    evalDesc (monicFromRoots rs) z = (rs.map (fun r => z - r)).prod := by
  show evalDesc (rs.foldl (fun coeffs root => convolve coeffs [1, -root]) [1]) z = _
  rw [evalDesc_fromRoots_aux]
  rw [evalDesc_cons]
  simp [evalDesc_nil]

theorem evalDesc_map_scale (a : Complex) (l : List Complex) (z : Complex) :
    evalDesc (l.map (fun x => a * x)) z = a * evalDesc l z := by
  induction l with
  | nil => simp [evalDesc_nil]
  | cons c l ih =>
    rw [List.map_cons, evalDesc_cons, evalDesc_cons, ih, List.length_map]
    ring

theorem evalDesc_trim (l : List ℚ) (z : Complex) :
    evalDesc ((trimLead l).map ofQ) z = evalDesc (l.map ofQ) z := by
  induction l with
  | nil => rfl
  | cons c l ih =>
    by_cases hc : c = 0
    · subst hc
      show evalDesc ((trimLead (0 :: l)).map ofQ) z = _
      have : trimLead ((0 : ℚ) :: l) = trimLead l := by simp [trimLead]
      rw [this, ih, List.map_cons, evalDesc_cons]
      have : ofQ 0 = 0 := by simp [ofQ, Complex.ext_iff]
      rw [this]
      ring
    · have : trimLead (c :: l) = c :: l := by simp [trimLead, hc]
      rw [this]

theorem trimLead_headD_ne_zero (l : List ℚ) (h : trimLead l ≠ []) :
    (trimLead l).headD 0 ≠ 0 := by
  induction l with
  | nil => simp [trimLead] at h
  | cons c l ih =>
    by_cases hc : c = 0
    · subst hc
      have heq : trimLead ((0 : ℚ) :: l) = trimLead l := by simp [trimLead]
      rw [heq] at h ⊢
      exact ih h
    · have heq : trimLead (c :: l) = c :: l := by simp [trimLead, hc]
      rw [heq]
      simpa using hc

theorem getLastD_ne_zero_trim (l : List ℚ) (h : l.getLastD 0 ≠ 0) : trimLead l ≠ [] := by
  induction l with
  | nil => simp at h
  | cons c l ih =>
    by_cases hc : c = 0
    · subst hc
      have heq : trimLead ((0 : ℚ) :: l) = trimLead l := by simp [trimLead]
      rw [heq]
      cases l with
      | nil => simp at h
      | cons d ds =>
        refine ih ?_
        simpa [List.getLastD_cons] using h
    · simp [trimLead, hc]

/-! ### `pyUnique`, `countOcc` and `groupCount` facts -/

theorem mem_pyUnique {α : Type} [DecidableEq α] {x : α} {l : List α} :
    x ∈ pyUnique l ↔ x ∈ l := by
  induction l with
  | nil => simp [pyUnique]
  | cons y ys ih =>
    by_cases hy : y ∈ ys
    · simp only [pyUnique, if_pos hy, ih, List.mem_cons]
      constructor
      · exact Or.inr
      · rintro (rfl | h)
        · exact hy
        · exact h
    · simp [pyUnique, if_neg hy, ih]

theorem pyUnique_eq_nil {α : Type} [DecidableEq α] {l : List α} :
    pyUnique l = [] ↔ l = [] := by
  cases l with
  | nil => simp [pyUnique]
  | cons y ys =>
    constructor
    · intro h
      have : y ∈ pyUnique (y :: ys) := mem_pyUnique.mpr (by simp)
      rw [h] at this
      simp at this
    · intro h; simp at h

theorem pyUnique_all_zero {l : List ℚ} (hne : l ≠ []) (hall : ∀ c ∈ l, c = 0) :
    pyUnique l = [0] := by
  induction l with
  | nil => simp at hne
  | cons c cs ih =>
    have hc : c = 0 := hall c (by simp)
    subst hc
    cases cs with
    | nil => simp [pyUnique]
    | cons d ds =>
      have hd : d = 0 := hall d (by simp)
      have hmem : (0 : ℚ) ∈ d :: ds := by simp [hd]
      rw [pyUnique, if_pos hmem]
      exact ih (by simp) (fun x hx => hall x (by simp [hx]))

theorem zeroDivisorCheck_iff (l : List ℚ) :
    zeroDivisorCheck l = true ↔ (l ≠ [] ∧ ∀ c ∈ l, c = 0) := by
  simp only [zeroDivisorCheck, Bool.and_eq_true, decide_eq_true_eq]
  constructor
  · rintro ⟨hlen, hmem⟩
    obtain ⟨x, hx⟩ := List.length_eq_one.mp hlen
    have hne : l ≠ [] := by
      intro h
      rw [h] at hmem
      simp at hmem
    refine ⟨hne, fun c hc => ?_⟩
    have hcx : c = x := by
      have : c ∈ pyUnique l := mem_pyUnique.mpr hc
      rw [hx] at this
      simpa using this
    have h0x : (0 : ℚ) = x := by
      have : (0 : ℚ) ∈ pyUnique l := mem_pyUnique.mpr hmem
      rw [hx] at this
      simpa using this
    rw [hcx, ← h0x]
  · rintro ⟨hne, hall⟩
    have := pyUnique_all_zero hne hall
    refine ⟨by rw [this]; rfl, ?_⟩
    cases l with
    | nil => simp at hne
    | cons c cs => simp [hall c (by simp)]

theorem mem_groupCount {l : List Complex} {z : Complex} {m : ℕ} :
    (z, m) ∈ groupCount l ↔ z ∈ l ∧ m = countOcc z l := by
  simp only [groupCount, List.mem_map, Prod.mk.injEq]
  constructor
  · rintro ⟨r, hr, rfl, rfl⟩
    exact ⟨mem_pyUnique.mp hr, rfl⟩
  · rintro ⟨hz, rfl⟩
    exact ⟨z, mem_pyUnique.mpr hz, rfl, rfl⟩

theorem countOcc_eq_count {α : Type} [DecidableEq α] (x : α) (l : List α) :
    countOcc x l = l.count x := by
  induction l with
  | nil => rfl
  | cons y ys ih =>
    by_cases h : y = x
    · subst h
      simp [countOcc, ih, List.count_cons_self, Nat.add_comm]
    · rw [countOcc, ih, List.count_cons_of_ne (fun hc => h hc.symm)]
      simp [h]

/-! ### Lengths of reconstructed polynomials -/

theorem polynomial_from_roots_error_eq (rs : List Complex) (e : PyErr)
    (h : polynomial_from_roots rs = .error e) : e = PyErr.attrErr := by
  unfold polynomial_from_roots at h
  by_cases hrs : rs = []
  · rw [if_pos hrs] at h
    cases h
    rfl
  · rw [if_neg hrs] at h
    cases h

/-! ### The claims

Concrete computations are settled by kernel evaluation; the rational
arithmetic of the standard library is sealed against unfolding, so it is
unsealed here first. -/

unseal Rat.add Rat.mul Rat.sub Rat.inv

/-- Claim C1.  The claim states that `divide(p*q, q)` returns a quotient
coefficient-equivalent to `p` and remainder `[0]`.  On the code, with
`p = q` the polynomial with coefficients `[1, -1]` (the solver returning
its root `1` exactly): `p * q` has coefficients `[1, -2, 1]` and root `1`
with multiplicity `2`; `div` first cancels `q`'s root from the dividend's
map (leaving multiplicity `1`) and then still divides the reduced dividend
by the full divisor, so it returns quotient `[1]` — a constant, not
coefficient-equivalent to `p` — with remainder `[0]`. -/
theorem C1_round_trip_fails_on_code :
    Polynomial.mulCoef (mkPolynomial [1, -1] [⟨1, 0⟩]) (mkPolynomial [1, -1] [⟨1, 0⟩]) =
      [1, -2, 1] ∧
    ExactSolver [1, -1] [⟨1, 0⟩] ∧
    ExactSolver [1, -2, 1] [⟨1, 0⟩, ⟨1, 0⟩] ∧
    Polynomial.div (mkPolynomial [1, -2, 1] [⟨1, 0⟩, ⟨1, 0⟩]) (mkPolynomial [1, -1] [⟨1, 0⟩]) 3 =
      .ok ⟨some ([⟨1, 0⟩], [⟨0, 0⟩]), [(⟨1, 0⟩, 1)], [(⟨1, 0⟩, 1)]⟩ ∧
    ([⟨1, 0⟩] : List Complex) ≠ (mkPolynomial [1, -1] [⟨1, 0⟩]).coefficients.map ofQ := by
  decide

/-- Claim C2, counterexample to the claim as stated.  For the coefficient
sequence `[1, 2]`, the solver — handed the raw list, which it reads in
descending order as `x + 2` — returns the single root `-2` exactly, so the
cached map is `{-2 ↦ 1}`; but `-2` is not a root of the ascending-order
polynomial `1 + 2x` named by the claim (its value there is `-3`). -/
theorem C2_ascending_reading_fails :
    ExactSolver [1, 2] [⟨-2, 0⟩] ∧
    (mkPolynomial [1, 2] [⟨-2, 0⟩]).roots = [(⟨-2, 0⟩, 1)] ∧
    evalAsc [1, 2] ⟨-2, 0⟩ ≠ 0 := by
  decide

/-- Claim C2 (amended): for a coefficient sequence with nonzero
highest-degree coefficient and an exact solver run, the constructor's
cached map contains exactly the roots of the polynomial obtained by
reading the coefficients in DESCENDING order, `c[0]*x^n + ... + c[n]`
(the order `np.roots` actually assigns to the raw list it is handed), each
mapped to its multiplicity in the solver's exact root multiset. -/
theorem C2_roots_cache_descending (coeffs : List ℚ) (rootList : List Complex)
    (hlead : coeffs.getLastD 0 ≠ 0) (hsolver : ExactSolver coeffs rootList) :
    (∀ z : Complex,
        (∃ m, (z, m) ∈ (mkPolynomial coeffs rootList).roots) ↔
          evalDesc (coeffs.map ofQ) z = 0) ∧
    (∀ z m, (z, m) ∈ (mkPolynomial coeffs rootList).roots → m = countOcc z rootList) := by
  have htr : trimLead coeffs ≠ [] := getLastD_ne_zero_trim coeffs hlead
  have hc : (trimLead coeffs).headD 0 ≠ 0 := trimLead_headD_ne_zero coeffs htr
  have hcC : ofQ ((trimLead coeffs).headD 0) ≠ 0 := fun h => hc (ofQ_eq_zero.mp h)
  have hmap := hsolver.2 htr
  have heval : ∀ z : Complex,
      evalDesc (coeffs.map ofQ) z =
        ofQ ((trimLead coeffs).headD 0) * (rootList.map (fun r => z - r)).prod := by
    intro z
    rw [← evalDesc_trim, hmap, evalDesc_map_scale, evalDesc_fromRoots]
  constructor
  · intro z
    constructor
    · rintro ⟨m, hm⟩
      obtain ⟨hz, _⟩ := mem_groupCount.mp hm
      rw [heval z]
      apply mul_eq_zero_of_right
      apply List.prod_eq_zero
      exact List.mem_map.mpr ⟨z, hz, by simp⟩
    · intro h0
      rw [heval z] at h0
      rcases mul_eq_zero.mp h0 with h | h
      · exact absurd h hcC
      · obtain ⟨r, hr, hzr⟩ := List.mem_map.mp (List.prod_eq_zero_iff.mp h)
        have : z = r := by
          have := sub_eq_zero.mp hzr
          exact this
        subst this
        exact ⟨countOcc z rootList, mem_groupCount.mpr ⟨hr, rfl⟩⟩
  · intro z m hm
    exact (mem_groupCount.mp hm).2

/-- Claim C2 (amended), witness at the concrete input of the
counterexample: coefficients `[1, 2]`, exact root list `[-2]`. -/
theorem C2_roots_cache_descending_witness :
    (([1, 2] : List ℚ).getLastD 0 ≠ 0) ∧ ExactSolver [1, 2] [⟨-2, 0⟩] ∧
    ((∀ z : Complex,
        (∃ m, (z, m) ∈ (mkPolynomial [1, 2] [⟨-2, 0⟩]).roots) ↔
          evalDesc (([1, 2] : List ℚ).map ofQ) z = 0) ∧
      (∀ z m, (z, m) ∈ (mkPolynomial [1, 2] [⟨-2, 0⟩]).roots → m = countOcc z [⟨-2, 0⟩])) :=
  ⟨by decide, by decide,
    C2_roots_cache_descending [1, 2] [⟨-2, 0⟩] (by decide) (by decide)⟩

/-- Claim C3.  `div` binds `p1 = self.roots` by reference and decrements
multiplicities in place, so the dividend's cached map is mutated: with
dividend `(x-1)^3` (coefficients `[1, -3, 3, -1]`, cached map `{1 ↦ 3}`)
and divisor `x - 1`, after `divide` the dividend's map is `{1 ↦ 2}`. -/
theorem C3_div_mutates_dividend_roots :
    ExactSolver [1, -3, 3, -1] [⟨1, 0⟩, ⟨1, 0⟩, ⟨1, 0⟩] ∧
    ExactSolver [1, -1] [⟨1, 0⟩] ∧
    (mkPolynomial [1, -3, 3, -1] [⟨1, 0⟩, ⟨1, 0⟩, ⟨1, 0⟩]).roots = [(⟨1, 0⟩, 3)] ∧
    Polynomial.div (mkPolynomial [1, -3, 3, -1] [⟨1, 0⟩, ⟨1, 0⟩, ⟨1, 0⟩])
        (mkPolynomial [1, -1] [⟨1, 0⟩]) 9 =
      .ok ⟨some ([⟨1, 0⟩, ⟨-1, 0⟩], [⟨0, 0⟩]), [(⟨1, 0⟩, 2)], [(⟨1, 0⟩, 1)]⟩ ∧
    ([(⟨1, 0⟩, 2)] : List (Complex × ℕ)) ≠ [(⟨1, 0⟩, 3)] := by
  decide

/-- Claim C4, counterexample to the claim as stated.  For the divisor with
EMPTY coefficient sequence, every coefficient is (vacuously) zero, yet no
division-by-zero error is raised: the degenerate-zero check
`len(set(...)) == 1 and 0 in ...` does not fire, and the call instead dies
with the `AttributeError` of `polynomial_from_roots([])` at line 92
(dividend `Polynomial([1])` has no roots) — a different exception. -/
theorem C4_empty_divisor_no_zero_division_error :
    (∀ c ∈ ([] : List ℚ), c = 0) ∧
    ExactSolver [1] [] ∧ ExactSolver [] [] ∧
    Polynomial.div (mkPolynomial [1] []) (mkPolynomial [] []) 3 = .error .attrErr ∧
    Polynomial.div (mkPolynomial [1] []) (mkPolynomial [] []) 3 ≠ .error .zeroDivision := by
  decide

/-- Claim C4 (amended): `divide(p, q)` raises `ZeroDivisionError` iff the
divisor's coefficient sequence is NON-EMPTY and every coefficient is zero;
for any divisor with at least one nonzero coefficient (or with no
coefficients at all) no division-by-zero error is raised — though the run
may end in a different exception (`AttributeError` from reconstruction) or
never return. -/
theorem C4_zero_division_iff (p q : Polynomial) (fuel : ℕ) :
    Polynomial.div p q fuel = .error .zeroDivision ↔
      (q.coefficients ≠ [] ∧ ∀ c ∈ q.coefficients, c = 0) := by
  rw [← zeroDivisorCheck_iff]
  by_cases h : zeroDivisorCheck q.coefficients
  · simp [Polynomial.div, h]
  · simp only [Bool.not_eq_true] at h
    constructor
    · intro hc
      simp only [Polynomial.div, h, Bool.false_eq_true, if_false] at hc
      split at hc
      · rename_i e heq
        have he := polynomial_from_roots_error_eq _ _ heq
        subst he
        simp at hc
      · split at hc
        · rename_i e heq
          have he := polynomial_from_roots_error_eq _ _ heq
          subst he
          simp at hc
        · split at hc <;> simp at hc
    · intro hc
      rw [hc] at h
      simp at h

/-- Claim C6.  Adding/subtracting Polynomials with different-length
coefficient sequences does not zero-pad: numpy broadcasts a length-1
operand (`[1, 2] + [1]` gives `[2, 3]`, adding `1` to EVERY coefficient,
where zero-padding would give `[2, 2]`) and raises `ValueError` on any
other length mismatch (`[1, 2] ± [1, 3, 2]`). -/
theorem C6_add_sub_no_zero_padding :
    Polynomial.addCoef (mkPolynomial [1, 2] [⟨-2, 0⟩]) (mkPolynomial [1] []) = .ok [2, 3] ∧
    ([2, 3] : List ℚ) ≠ [1 + 1, 2 + 0] ∧
    Polynomial.addCoef (mkPolynomial [1, 2] [⟨-2, 0⟩])
      (mkPolynomial [1, 3, 2] [⟨-1, 0⟩, ⟨-2, 0⟩]) = .error () ∧
    Polynomial.subCoef (mkPolynomial [1, 2] [⟨-2, 0⟩])
      (mkPolynomial [1, 3, 2] [⟨-1, 0⟩, ⟨-2, 0⟩]) = .error () := by
  decide

/-- Claim C7.  `__neg__` computes `-self.coefficients()`: unary minus
applied to a plain Python list, which raises `TypeError` for every
polynomial, instead of negating the coefficients. -/
theorem C7_neg_always_raises (p : Polynomial) : Polynomial.negCoef p = .error () := rfl

/-- Claim C8.  `__rtruediv__` never uses its scalar operand: `2 / z` at
`z = 1` returns `conjugate(z) / |z|^2 = 1`, not the claim's
`Complex(s*re/r^2, -s*im/r^2) = 2`. -/
theorem C8_rtruediv_drops_scalar :
    Complex.rtruediv ⟨1, 0⟩ 2 = .ok ⟨1, 0⟩ ∧
    (⟨1, 0⟩ : Complex) ≠ ⟨2 * 1 / 1, -(2 * 0) / 1⟩ := by
  decide

/-- Claim C9.  `Complex(0.0, 0.0)` and `Complex(-0.0, 0.0)` compare equal
(`0.0 == -0.0`), but their reprs are `'0.0'` and `'-0.0'`, so the hashes —
string hashes of the reprs — differ: hashing is not consistent with
equality. -/
theorem C9_hash_breaks_on_negative_zero :
    ComplexF.eq ⟨⟨0, false⟩, ⟨0, false⟩⟩ ⟨⟨0, true⟩, ⟨0, false⟩⟩ = true ∧
    ComplexF.pyHash ⟨⟨0, false⟩, ⟨0, false⟩⟩ ≠ ComplexF.pyHash ⟨⟨0, true⟩, ⟨0, false⟩⟩ := by
  decide

/-- Claim C10.  `__eq__` raises `NotImplementedError` on an operand that is
neither a real scalar nor a `Complex`, and `__ne__`, which negates
`__eq__`'s result, propagates the same error. -/
theorem C10_eq_ne_raise_on_foreign_type (z : Complex) :
    Complex.eqOp z .other = .error () ∧ Complex.neOp z .other = .error () :=
  ⟨rfl, rfl⟩

end Minimaizer
